import Mathlib

/-!
Verification of the glimpse randomized-decision-tree training core.

This file gives a shallow embedding of the training engine of
`src/train_rdt.cc` and the shared feature evaluator `sample_uv` of
`training/infer.cc`, and proves the frozen specification claims about them.

Modelling conventions:
* 32-bit float arithmetic is embedded as exact rational arithmetic (`ℚ`);
  the transcendental `log2f` used by the entropy computation is embedded as
  the exact real `Real.logb 2`.
* images are total functions from a flattened row-major index to a value,
  mirroring the pointer arithmetic of the source;
* the process-global `interrupted` flag is `false` (sequential semantics);
* the `exit(1)` taken by `accumulate_histograms` on an out-of-range label is
  reflected by valid-label hypotheses on the theorems about that code path.
-/

namespace Glimpse

/-- Truncation toward zero of a rational, the meaning of the C cast
`(int32_t)` applied to a (finite, in-range) float value. -/
def ratTrunc (q : ℚ) : ℤ := if 0 ≤ q then ⌊q⌋ else ⌈q⌉

/-- A feature-offset 4-tuple `(ux, uy, vx, vy)` (`UVPair` in the source). -/
structure UVPair where
  ux : ℚ
  uy : ℚ
  vx : ℚ
  vy : ℚ
  deriving DecidableEq

/-- The feature evaluator `sample_uv` from `training/infer.cc`:
`u = ((int32_t)(x + ux/d), (int32_t)(y + uy/d))`, likewise `v`; each side
reads the depth image at its point when within bounds and is the constant
`1000.0` otherwise; the result is `upixel - vpixel`. -/
def sample_uv (depth_image : ℤ → ℚ) (width height : ℤ) (px py : ℤ)
    (depth : ℚ) (uv : UVPair) : ℚ :=
  let ux : ℤ := ratTrunc ((px : ℚ) + uv.ux / depth)
  let uy : ℤ := ratTrunc ((py : ℚ) + uv.uy / depth)
  let vx : ℤ := ratTrunc ((px : ℚ) + uv.vx / depth)
  let vy : ℤ := ratTrunc ((py : ℚ) + uv.vy / depth)
  let upixel : ℚ :=
    if 0 ≤ ux ∧ ux < width ∧ 0 ≤ uy ∧ uy < height
    then depth_image (uy * width + ux) else 1000
  let vpixel : ℚ :=
    if 0 ≤ vx ∧ vx < width ∧ 0 ≤ vy ∧ vy < height
    then depth_image (vy * width + vx) else 1000
  upixel - vpixel

/-- Whether the integer point `(x, y)` lies within the image bounds. -/
abbrev inBounds (width height x y : ℤ) : Prop :=
  0 ≤ x ∧ x < width ∧ 0 ≤ y ∧ y < height

/-- The quantity `D_p` of the specification: the depth at the integer point
`(x, y)` when it is within bounds, and the constant `1000.0` otherwise. -/
def depthAtOr1000 (depth_image : ℤ → ℚ) (width height x y : ℤ) : ℚ :=
  if inBounds width height x y then depth_image (y * width + x) else 1000

/-- A pixel reference (`Int3D` in the source): coordinates plus image index. -/
structure Pixel where
  x : ℤ
  y : ℤ
  i : ℕ
  deriving DecidableEq

/-- The fields of `TrainContext` that the training mathematics reads. -/
structure TrainContext where
  width : ℤ
  height : ℤ
  fov : ℚ
  n_labels : ℕ
  depthImages : ℕ → ℤ → ℚ
  labelImages : ℕ → ℤ → ℕ
  n_uv : ℕ
  uvs : ℕ → UVPair
  n_t : ℕ
  ts : ℕ → ℚ
  max_depth : ℕ

/-- Training-time data of a frontier node (`NodeTrainData` in the source). -/
structure NodeTrainData where
  id : ℕ
  depth : ℕ
  pixels : List Pixel
  deriving DecidableEq

/-- Label of a pixel reference: `label_image[pixel[1] * width + pixel[0]]`. -/
def pixelLabel (ctx : TrainContext) (p : Pixel) : ℕ :=
  ctx.labelImages p.i (p.y * ctx.width + p.x)

/-- Depth of a pixel reference: `depth_image[pixel[1] * width + pixel[0]]`. -/
def pixelDepth (ctx : TrainContext) (p : Pixel) : ℚ :=
  ctx.depthImages p.i (p.y * ctx.width + p.x)

/-- The feature value the source obtains by calling
`sample_uv(depth_image, width, height, pixel, depth, uv)` for a pixel. -/
def featureUV (ctx : TrainContext) (p : Pixel) (uv : UVPair) : ℚ :=
  sample_uv (ctx.depthImages p.i) ctx.width ctx.height p.x p.y
    (pixelDepth ctx p) uv

/-- The feature value for the `c`-th candidate uv pair. -/
def featureVal (ctx : TrainContext) (p : Pixel) (c : ℕ) : ℚ :=
  featureUV ctx p (ctx.uvs c)

/-- Histogram state of `accumulate_histograms`: the root histogram and the
per-candidate left/right histograms.  The flat `lr_histograms` array of the
source is indexed here by absolute uv index, threshold index, side
(`true` is the left block, for `sample < threshold`) and label. -/
structure Hists where
  root : ℕ → ℕ
  lr : ℕ → ℕ → Bool → ℕ → ℕ

/-- The zeroed histograms (the `memset` before each node). -/
def emptyHists : Hists := ⟨fun _ => 0, fun _ _ _ _ => 0⟩

/-- One iteration of the pixel loop of `accumulate_histograms`: increment
`root_histogram[label]`; then, unless the node sits at the final permitted
depth (`depth >= max_depth - 1`), increment, for every candidate `c` of the
worker's stripe and every threshold `t`, the left or right cell selected by
comparing `sample_uv` against the threshold. -/
def accumStep (ctx : TrainContext) (nodeDepth c_start c_end : ℕ)
    (h : Hists) (p : Pixel) : Hists :=
  let label := pixelLabel ctx p
  { root := fun l => if l = label then h.root l + 1 else h.root l
    lr :=
      if ctx.max_depth - 1 ≤ nodeDepth then h.lr
      else fun c t side l =>
        if c_start ≤ c ∧ c < c_end ∧ t < ctx.n_t ∧ l = label ∧
            side = decide (featureVal ctx p c < ctx.ts t)
        then h.lr c t side l + 1 else h.lr c t side l }

/-- The engine `accumulate_histograms` over a node's pixel array for the uv stripe
`[c_start, c_end)`, starting from zeroed histograms. -/
def accumulate_histograms (ctx : TrainContext) (node : NodeTrainData)
    (c_start c_end : ℕ) : Hists :=
  node.pixels.foldl (accumStep ctx node.depth c_start c_end) emptyHists

/-- The helper `normalize_histogram` returns the normalised histogram together with the
pair `sums`, where `sums.1` is the total pixel count and `sums.2` the number
of non-empty labels.  When the total is zero the output is all zeros. -/
def normalize_histogram (histogram : ℕ → ℕ) (n_labels : ℕ) :
    (ℕ → ℚ) × ℕ × ℕ :=
  let sums0 : ℕ := ∑ i ∈ Finset.range n_labels,
    if 0 < histogram i then histogram i else 0
  let sums1 : ℕ := ∑ i ∈ Finset.range n_labels,
    if 0 < histogram i then 1 else 0
  (fun i => if 0 < sums0 then (histogram i : ℚ) / (sums0 : ℚ) else 0,
   sums0, sums1)

/-- The partitioner `collect_pixels`: every parent pixel is re-tested with the winning
feature and threshold and appended to the left child when `value < t`, to
the right child otherwise; the recorded counts are overwritten with the
actual appended counts whenever they differ from the hint sizes. -/
def collect_pixels (ctx : TrainContext) (node : NodeTrainData) (uv : UVPair)
    (t : ℚ) (hint : ℕ × ℕ) : List Pixel × List Pixel × ℕ × ℕ :=
  let part := node.pixels.partition fun p => decide (featureUV ctx p uv < t)
  (part.1, part.2,
   (if hint.1 ≠ part.1.length then part.1.length else hint.1),
   (if hint.2 ≠ part.2.length then part.2.length else hint.2))

/-- One step of the coordinator's reduction over worker results: take worker
`i`'s published gain when it strictly exceeds the best seen so far. -/
def reduceStep (best_gains : List ℚ) (st : Option ℕ × ℚ) (i : ℕ) :
    Option ℕ × ℚ :=
  if st.2 < best_gains.getD i 0 then (some i, best_gains.getD i 0) else st

/-- The coordinator's reduction: iterate the workers in ascending index,
starting from best gain `0` and no selected worker. -/
def reduceBest (best_gains : List ℚ) : Option ℕ × ℚ :=
  (List.range best_gains.length).foldl (reduceStep best_gains) (none, 0)

/-- The coordinator's split decision: split exactly when the reduced best
gain is positive and the children would still be within `max_depth`. -/
def splitDecision (best_gain : ℚ) (depth max_depth : ℕ) : Bool :=
  decide (0 < best_gain) && decide (depth + 1 < max_depth)

/-- Threshold table construction from `main`:
`ts[i] = -t_range/2 + i * t_range / (n_t - 1)` (all in float arithmetic;
note that for `n_t = 1` the divisor is zero). -/
def make_ts (n_t : ℕ) (t_range : ℚ) (i : ℕ) : ℚ :=
  -t_range / 2 + (i : ℚ) * t_range / ((n_t - 1 : ℕ) : ℚ)

/-- The entropy `calculate_shannon_entropy`: `-Σ p·log2 p` over the entries of the
normalised histogram, where entries outside the open interval `(0, 1)` are
skipped by the `value > 0 && value < 1` test of the source. -/
noncomputable def calculate_shannon_entropy (normalized_histogram : ℕ → ℚ)
    (n_labels : ℕ) : ℝ :=
  ∑ i ∈ Finset.range n_labels,
    if 0 < normalized_histogram i ∧ normalized_histogram i < 1
    then -((normalized_histogram i : ℝ)) * Real.logb 2 ((normalized_histogram i : ℝ))
    else 0

/-- The gain `calculate_gain`:
`entropy - (l_n/n * l_entropy + r_n/n * r_entropy)`. -/
noncomputable def calculate_gain (entropy : ℝ) (n_pixels : ℕ)
    (l_entropy : ℝ) (l_n_pixels : ℕ) (r_entropy : ℝ) (r_n_pixels : ℕ) : ℝ :=
  entropy - (((l_n_pixels : ℝ) / (n_pixels : ℝ) * l_entropy) +
             ((r_n_pixels : ℝ) / (n_pixels : ℝ) * r_entropy))

/-- State tracked across the candidate loop of `thread_body`: the best gain
so far, the best `(uv index, threshold index)` pair when one has been
recorded, and the corresponding left/right pixel counts. -/
structure BestState where
  gain : ℝ
  best : Option (ℕ × ℕ)
  n_l : ℕ
  n_r : ℕ

/-- The candidate-loop state before any pair is examined:
`*data->best_gain = 0.f` and no best pair written. -/
def initBest : BestState := ⟨0, none, 0, 0⟩

/-- The `(uv index, threshold index)` pairs of a worker's stripe, in the
order of the nested candidate loop of `thread_body`. -/
def stripePairs (c_start c_end n_t : ℕ) : List (ℕ × ℕ) :=
  (List.range' c_start (c_end - c_start)).flatMap fun i =>
    (List.range n_t).map fun j => (i, j)

/-- One step of the candidate loop of `thread_body`: normalise the left
histogram and skip when it is empty or holds all of the node's pixels;
otherwise compute both side entropies and the gain, and take this pair as
the new best when its gain strictly exceeds the best so far. -/
noncomputable def candidateStep (ctx : TrainContext) (hists : Hists)
    (root_n_pixels : ℕ) (entropy : ℝ) (st : BestState) (p : ℕ × ℕ) :
    BestState :=
  let lRes := normalize_histogram (hists.lr p.1 p.2 true) ctx.n_labels
  if lRes.2.1 = 0 ∨ lRes.2.1 = root_n_pixels then st
  else
    let l_entropy := calculate_shannon_entropy lRes.1 ctx.n_labels
    let rRes := normalize_histogram (hists.lr p.1 p.2 false) ctx.n_labels
    let r_entropy := calculate_shannon_entropy rRes.1 ctx.n_labels
    let gain := calculate_gain entropy root_n_pixels l_entropy lRes.2.1
      r_entropy rRes.2.1
    if st.gain < gain then ⟨gain, some p, lRes.2.1, rRes.2.1⟩ else st

/-- What a worker publishes for one node: the normalised root histogram it
wrote, the best gain, the best pair if one was recorded, and the left/right
pixel counts of the best pair. -/
structure WorkerResult where
  rootNHist : ℕ → ℚ
  bestGain : ℝ
  best : Option (ℕ × ℕ)
  n_l : ℕ
  n_r : ℕ

/-- One iteration of the worker loop `thread_body` for the current node:
zero and accumulate the histograms over the stripe, normalise the root
histogram, publish gain `0` with no candidate search unless the root
histogram has more than one non-empty label and the node is above the final
permitted depth, and otherwise run the candidate loop. -/
noncomputable def thread_body_iteration (ctx : TrainContext)
    (node : NodeTrainData) (c_start c_end : ℕ) : WorkerResult :=
  let hists := accumulate_histograms ctx node c_start c_end
  let rootRes := normalize_histogram hists.root ctx.n_labels
  if 1 < rootRes.2.2 ∧ node.depth < ctx.max_depth - 1 then
    let entropy := calculate_shannon_entropy rootRes.1 ctx.n_labels
    let finalSt := (stripePairs c_start c_end ctx.n_t).foldl
      (candidateStep ctx hists rootRes.2.1 entropy) initBest
    ⟨rootRes.1, finalSt.gain, finalSt.best, finalSt.n_l, finalSt.n_r⟩
  else ⟨rootRes.1, 0, none, 0, 0⟩

/-- A stored tree node (`Node` in the source). -/
structure TreeNode where
  uv : UVPair
  t : ℚ
  label_pr_idx : ℕ
  deriving DecidableEq

/-- The sentinel marking a node as unfinished in checkpoints. -/
def UINT32_MAX : ℕ := 4294967295

/-- A checkpoint read back from disk (`RDTree` header, node array and leaf
probability tables). -/
structure Checkpoint where
  depth : ℕ
  n_labels : ℕ
  fov : ℚ
  nodes : ℕ → TreeNode
  label_pr_tables : ℕ → ℕ → ℚ

/-- The fatal data errors of the resume path. -/
inductive TrainError where
  | labelsMismatch
  | fovMismatch
  | depthExceedsCheckpoint
  | alreadyComplete
  deriving DecidableEq

/-- The checkpoint-walk loop of `main`: process the checkpoint queue in the
training BFS order; restored leaf distributions are appended to the
histogram list; nodes bearing the sentinel, and nodes on the saved tree's
final depth when deeper training is requested, are moved to the training
queue; interior nodes have their children's pixel sets built by
`collect_pixels` and appended to the checkpoint queue.  The list utilities
of the source (`llist.h`) are not under `src/`; both queues are modelled as
FIFO lists per the specification's BFS-order requirement.  Recursion is by
explicit fuel, one unit per processed node. -/
def walkGo (ctx : TrainContext) (chk : Checkpoint) :
    ℕ → List NodeTrainData → List NodeTrainData → List (ℕ → ℚ) →
    List NodeTrainData × List (ℕ → ℚ)
  | 0, _, tq, hs => (tq, hs)
  | _ + 1, [], tq, hs => (tq, hs)
  | fuel + 1, data :: rest, tq, hs =>
    let node := chk.nodes data.id
    let hs' := if node.label_pr_idx ≠ 0 ∧ node.label_pr_idx ≠ UINT32_MAX
               then hs ++ [chk.label_pr_tables (node.label_pr_idx - 1)]
               else hs
    if node.label_pr_idx = UINT32_MAX ∨
        (data.depth = chk.depth - 1 ∧ chk.depth < ctx.max_depth) then
      walkGo ctx chk fuel rest (tq ++ [data]) hs'
    else if node.label_pr_idx = 0 then
      let res := collect_pixels ctx data node.uv node.t (0, 0)
      let ldata : NodeTrainData := ⟨2 * data.id + 1, data.depth + 1, res.1⟩
      let rdata : NodeTrainData := ⟨2 * data.id + 2, data.depth + 1, res.2.1⟩
      walkGo ctx chk fuel (rest ++ [ldata, rdata]) tq hs'
    else
      walkGo ctx chk fuel rest tq hs'

/-- The full checkpoint walk: start from the queue holding the root node
(with its freshly generated pixels) and walk the saved tree; the fuel
`2 ^ max_depth` strictly exceeds the number of tree nodes. -/
def walkCheckpoint (ctx : TrainContext) (chk : Checkpoint)
    (rootPixels : List Pixel) : List NodeTrainData × List (ℕ → ℚ) :=
  walkGo ctx chk (2 ^ ctx.max_depth) [⟨0, 0, rootPixels⟩] [] []

/-- The checkpoint-restore path of `main`: validate the label count, the
field of view (within `1e-6`) and the saved depth against the requested
parameters, in that order; then walk the saved tree and fail when the
reconstructed training queue is empty. -/
def restore_checkpoint (ctx : TrainContext) (rootPixels : List Pixel)
    (chk : Checkpoint) : Except TrainError (List NodeTrainData) :=
  if chk.n_labels ≠ ctx.n_labels then .error .labelsMismatch
  else if |chk.fov - ctx.fov| > 1 / 1000000 then .error .fovMismatch
  else if ctx.max_depth < chk.depth then .error .depthExceedsCheckpoint
  else
    let frontier := (walkCheckpoint ctx chk rootPixels).1
    if frontier = [] then .error .alreadyComplete
    else .ok frontier

/-- A concrete 2×1 two-label context used to instantiate the theorems. -/
def exCtx : TrainContext where
  width := 2
  height := 1
  fov := 1
  n_labels := 2
  depthImages := fun _ _ => 1
  labelImages := fun _ idx => if idx = 0 then 0 else 1
  n_uv := 1
  uvs := fun _ => ⟨0, 0, 0, 0⟩
  n_t := 1
  ts := fun _ => 0
  max_depth := 3

/-- A concrete root node holding one pixel of each label of `exCtx`. -/
def exNode : NodeTrainData := ⟨0, 0, [⟨0, 0, 0⟩, ⟨1, 0, 0⟩]⟩

/-- A concrete node sitting at the final permitted depth of `exCtx`. -/
def exNodeFinal : NodeTrainData := ⟨3, 2, [⟨0, 0, 0⟩, ⟨1, 0, 0⟩]⟩

/-- A fully trained single-leaf checkpoint at depth `exCtx.max_depth`. -/
def exChkComplete : Checkpoint :=
  ⟨3, 2, 1, fun _ => ⟨⟨0, 0, 0, 0⟩, 0, 1⟩, fun _ _ => 1⟩

/-- A checkpoint whose label count disagrees with `exCtx`. -/
def exChkBadLabels : Checkpoint :=
  ⟨3, 5, 1, fun _ => ⟨⟨0, 0, 0, 0⟩, 0, 1⟩, fun _ _ => 1⟩

/-- A checkpoint whose field of view disagrees with `exCtx`. -/
def exChkBadFov : Checkpoint :=
  ⟨3, 2, 2, fun _ => ⟨⟨0, 0, 0, 0⟩, 0, 1⟩, fun _ _ => 1⟩

/-- A checkpoint trained deeper than `exCtx.max_depth` requests. -/
def exChkTooDeep : Checkpoint :=
  ⟨5, 2, 1, fun _ => ⟨⟨0, 0, 0, 0⟩, 0, 1⟩, fun _ _ => 1⟩

/-! ## Theorems -/

/-- C1: for every pixel `(x, y)`, positive depth `d`, image dimensions and
uv 4-tuple, `sample_uv` returns `D_u - D_v`, where `u` and `v` are the
offset points converted to integer coordinates by truncation and `D_p` is
the depth at `p` when `p` lies within bounds and the constant `1000.0`
otherwise; in particular the result is `0` when both sides are out of
bounds, and `±(1000 - D)` when exactly one side is out of bounds with
in-bounds depth `D`. -/
theorem sample_uv_spec (depth_image : ℤ → ℚ) (width height px py : ℤ)
    (depth : ℚ) (uv : UVPair) (_hd : 0 < depth) :
    sample_uv depth_image width height px py depth uv =
      depthAtOr1000 depth_image width height
        (ratTrunc ((px : ℚ) + uv.ux / depth))
        (ratTrunc ((py : ℚ) + uv.uy / depth)) -
      depthAtOr1000 depth_image width height
        (ratTrunc ((px : ℚ) + uv.vx / depth))
        (ratTrunc ((py : ℚ) + uv.vy / depth))
    ∧ (¬ inBounds width height (ratTrunc ((px : ℚ) + uv.ux / depth))
          (ratTrunc ((py : ℚ) + uv.uy / depth)) →
       ¬ inBounds width height (ratTrunc ((px : ℚ) + uv.vx / depth))
          (ratTrunc ((py : ℚ) + uv.vy / depth)) →
       sample_uv depth_image width height px py depth uv = 0)
    ∧ (¬ inBounds width height (ratTrunc ((px : ℚ) + uv.ux / depth))
          (ratTrunc ((py : ℚ) + uv.uy / depth)) →
       inBounds width height (ratTrunc ((px : ℚ) + uv.vx / depth))
          (ratTrunc ((py : ℚ) + uv.vy / depth)) →
       sample_uv depth_image width height px py depth uv =
         1000 - depth_image
           (ratTrunc ((py : ℚ) + uv.vy / depth) * width +
            ratTrunc ((px : ℚ) + uv.vx / depth)))
    ∧ (inBounds width height (ratTrunc ((px : ℚ) + uv.ux / depth))
          (ratTrunc ((py : ℚ) + uv.uy / depth)) →
       ¬ inBounds width height (ratTrunc ((px : ℚ) + uv.vx / depth))
          (ratTrunc ((py : ℚ) + uv.vy / depth)) →
       sample_uv depth_image width height px py depth uv =
         depth_image
           (ratTrunc ((py : ℚ) + uv.uy / depth) * width +
            ratTrunc ((px : ℚ) + uv.ux / depth)) - 1000) := by
  refine ⟨rfl, ?_, ?_, ?_⟩
  · intro hu hv
    simp only [sample_uv, depthAtOr1000]
    rw [if_neg hu, if_neg hv, sub_self]
  · intro hu hv
    simp only [sample_uv, depthAtOr1000]
    rw [if_neg hu, if_pos hv]
  · intro hu hv
    simp only [sample_uv, depthAtOr1000]
    rw [if_pos hu, if_neg hv]

/-- Witness for C1: a 1×1 image of constant depth 2 where `u` falls out of
bounds and `v` stays in bounds, giving `1000 - 2`. -/
theorem sample_uv_spec_witness :
    sample_uv (fun _ => 2) 1 1 0 0 1 ⟨5, 0, 0, 0⟩ = 1000 - 2 :=
  (sample_uv_spec (fun _ => 2) 1 1 0 0 1 ⟨5, 0, 0, 0⟩ (by norm_num)).2.2.1
    (by norm_num [ratTrunc, inBounds]) (by norm_num [ratTrunc, inBounds])

/-- The pixel loop adds, to each root-histogram cell, the number of pixels
bearing that label. -/
theorem foldl_accumStep_root (ctx : TrainContext) (d c_start c_end : ℕ)
    (l : List Pixel) (h : Hists) (lb : ℕ) :
    (l.foldl (accumStep ctx d c_start c_end) h).root lb =
      h.root lb + l.countP (fun p => decide (pixelLabel ctx p = lb)) := by
  induction l generalizing h with
  | nil => simp
  | cons p rest ih =>
    rw [List.foldl_cons, ih, List.countP_cons]
    have hstep : (accumStep ctx d c_start c_end h p).root lb =
        h.root lb + if pixelLabel ctx p = lb then 1 else 0 := by
      simp only [accumStep]
      by_cases hc : pixelLabel ctx p = lb
      · rw [if_pos hc.symm, if_pos hc]
      · rw [if_neg (fun hx => hc hx.symm), if_neg hc, Nat.add_zero]
    rw [hstep]
    by_cases hc : pixelLabel ctx p = lb
    · simp only [decide_eq_true_eq, if_pos hc]
      omega
    · simp only [decide_eq_true_eq, if_neg hc]
      omega

/-- The root histogram accumulated for a node equals the per-label pixel
count of the node's pixel array, for any stripe. -/
theorem accum_root_apply (ctx : TrainContext) (node : NodeTrainData)
    (c_start c_end lb : ℕ) :
    (accumulate_histograms ctx node c_start c_end).root lb =
      node.pixels.countP (fun p => decide (pixelLabel ctx p = lb)) := by
  rw [accumulate_histograms, foldl_accumStep_root]
  simp [emptyHists]

/-- At the final permitted depth the pixel loop leaves the left/right
histograms untouched. -/
theorem foldl_accumStep_lr_final (ctx : TrainContext) (d c_start c_end : ℕ)
    (l : List Pixel) (h : Hists) (hd : ctx.max_depth - 1 ≤ d) :
    (l.foldl (accumStep ctx d c_start c_end) h).lr = h.lr := by
  induction l generalizing h with
  | nil => simp
  | cons p rest ih =>
    rw [List.foldl_cons, ih]
    simp only [accumStep, if_pos hd]

/-- Above the final depth, the pixel loop adds to each left/right cell of an
in-stripe candidate pair the number of its pixels with the cell's label that
the feature test sends to the cell's side. -/
theorem foldl_accumStep_lr (ctx : TrainContext) (d c_start c_end : ℕ)
    (l : List Pixel) (h : Hists) (c t : ℕ) (side : Bool) (lb : ℕ)
    (hd : d < ctx.max_depth - 1)
    (hc1 : c_start ≤ c) (hc2 : c < c_end) (ht : t < ctx.n_t) :
    (l.foldl (accumStep ctx d c_start c_end) h).lr c t side lb =
      h.lr c t side lb + l.countP (fun p => decide (pixelLabel ctx p = lb) &&
        (side == decide (featureVal ctx p c < ctx.ts t))) := by
  induction l generalizing h with
  | nil => simp
  | cons p rest ih =>
    rw [List.foldl_cons, ih, List.countP_cons]
    have hstep : (accumStep ctx d c_start c_end h p).lr c t side lb =
        h.lr c t side lb +
          if pixelLabel ctx p = lb ∧
             side = decide (featureVal ctx p c < ctx.ts t)
          then 1 else 0 := by
      simp only [accumStep, if_neg (not_le.mpr hd)]
      by_cases hb : pixelLabel ctx p = lb ∧
          side = decide (featureVal ctx p c < ctx.ts t)
      · rw [if_pos ⟨hc1, hc2, ht, hb.1.symm, hb.2⟩, if_pos hb]
      · rw [if_neg fun hx => hb ⟨hx.2.2.2.1.symm, hx.2.2.2.2⟩, if_neg hb,
          Nat.add_zero]
    rw [hstep]
    by_cases hb : pixelLabel ctx p = lb ∧
        side = decide (featureVal ctx p c < ctx.ts t)
    · simp only [Bool.and_eq_true, decide_eq_true_eq, beq_iff_eq,
        if_pos hb, if_pos hb.1, if_pos hb.2]
      omega
    · simp only [Bool.and_eq_true, decide_eq_true_eq, beq_iff_eq,
        if_neg hb]
      omega

/-- Summing per-label pixel counts over all valid labels recovers the count
of the side predicate alone, provided every pixel's label is in range. -/
theorem sum_countP_label (pixels : List Pixel) (lab : Pixel → ℕ)
    (q : Pixel → Bool) (n : ℕ) (hvalid : ∀ p ∈ pixels, lab p < n) :
    ∑ lb ∈ Finset.range n,
        pixels.countP (fun p => decide (lab p = lb) && q p) =
      pixels.countP q := by
  induction pixels with
  | nil => simp
  | cons p rest ih =>
    have hrest : ∀ x ∈ rest, lab x < n := fun x hx =>
      hvalid x (List.mem_cons_of_mem p hx)
    simp only [List.countP_cons]
    rw [Finset.sum_add_distrib, ih hrest]
    congr 1
    by_cases hq : q p = true
    · simp only [hq, Bool.and_true, if_pos rfl]
      have : ∀ lb ∈ Finset.range n,
          (if decide (lab p = lb) = true then 1 else 0) =
            if lab p = lb then 1 else 0 := by
        intro lb _
        simp
      rw [Finset.sum_congr rfl this, Finset.sum_ite_eq]
      simp [Finset.mem_range.mpr (hvalid p (List.mem_cons_self p rest))]
    · simp only [Bool.not_eq_true] at hq
      simp [hq]

/-- The `sums[0]` output of `normalize_histogram` is the plain sum of the
histogram (the positivity test in its loop drops only zero terms). -/
theorem normalize_total (h : ℕ → ℕ) (n : ℕ) :
    (normalize_histogram h n).2.1 = ∑ i ∈ Finset.range n, h i := by
  simp only [normalize_histogram]
  refine Finset.sum_congr rfl fun i _ => ?_
  split <;> omega

/-- Each entry of the normalised histogram is the cell count divided by the
total, and `0` when the total is zero. -/
theorem normalize_apply (h : ℕ → ℕ) (n i : ℕ) :
    (normalize_histogram h n).1 i =
      if 0 < ∑ j ∈ Finset.range n, h j
      then (h i : ℚ) / ((∑ j ∈ Finset.range n, h j : ℕ) : ℚ)
      else 0 := by
  have ht : (∑ j ∈ Finset.range n, if 0 < h j then h j else 0) =
      ∑ j ∈ Finset.range n, h j := by
    refine Finset.sum_congr rfl fun j _ => ?_
    split <;> omega
  simp only [normalize_histogram, ht]

/-- Normalised histogram entries are non-negative. -/
theorem normalize_nonneg (h : ℕ → ℕ) (n i : ℕ) :
    0 ≤ (normalize_histogram h n).1 i := by
  rw [normalize_apply]
  split
  · positivity
  · exact le_refl 0

/-- A normalised histogram with positive total sums to exactly `1`. -/
theorem normalize_sum_one (h : ℕ → ℕ) (n : ℕ)
    (hpos : 0 < ∑ i ∈ Finset.range n, h i) :
    ∑ i ∈ Finset.range n, (normalize_histogram h n).1 i = 1 := by
  have hS : ((∑ j ∈ Finset.range n, h j : ℕ) : ℚ) ≠ 0 := by
    exact_mod_cast hpos.ne'
  have he : ∀ i ∈ Finset.range n, (normalize_histogram h n).1 i =
      (h i : ℚ) / ((∑ j ∈ Finset.range n, h j : ℕ) : ℚ) := by
    intro i _
    rw [normalize_apply, if_pos hpos]
  rw [Finset.sum_congr rfl he, ← Finset.sum_div]
  rw [div_eq_one_iff_eq hS]
  exact_mod_cast rfl

/-- The worker publishes the normalised root histogram of the accumulated
root histogram, whether or not the candidate search runs. -/
theorem thread_body_rootNHist (ctx : TrainContext) (node : NodeTrainData)
    (c_start c_end : ℕ) :
    (thread_body_iteration ctx node c_start c_end).rootNHist =
      (normalize_histogram
        (accumulate_histograms ctx node c_start c_end).root
        ctx.n_labels).1 := by
  simp only [thread_body_iteration]
  split <;> rfl

/-- The accumulated root histogram sums, over the valid labels, to the
node's pixel count. -/
theorem accum_root_sum (ctx : TrainContext) (node : NodeTrainData)
    (c_start c_end : ℕ)
    (hvalid : ∀ p ∈ node.pixels, pixelLabel ctx p < ctx.n_labels) :
    ∑ lb ∈ Finset.range ctx.n_labels,
      (accumulate_histograms ctx node c_start c_end).root lb =
        node.pixels.length := by
  have h1 : ∀ lb, (accumulate_histograms ctx node c_start c_end).root lb =
      node.pixels.countP
        (fun p => decide (pixelLabel ctx p = lb) && (fun _ => true) p) := by
    intro lb
    rw [accum_root_apply]
    simp
  rw [Finset.sum_congr rfl fun lb _ => h1 lb,
    sum_countP_label _ _ _ _ hvalid]
  simp

/-- C5: the leaf distribution a worker publishes (and the coordinator copies
into the leaf probability table) is a valid probability measure: all entries
non-negative and summing to exactly `1`, except when the leaf received zero
pixels, in which case every entry is exactly `0`. -/
theorem leaf_distribution_valid (ctx : TrainContext) (node : NodeTrainData)
    (c_start c_end : ℕ)
    (hvalid : ∀ p ∈ node.pixels, pixelLabel ctx p < ctx.n_labels) :
    (∀ i, 0 ≤ (thread_body_iteration ctx node c_start c_end).rootNHist i)
    ∧ (node.pixels ≠ [] →
        ∑ i ∈ Finset.range ctx.n_labels,
          (thread_body_iteration ctx node c_start c_end).rootNHist i = 1)
    ∧ (node.pixels = [] →
        ∀ i, (thread_body_iteration ctx node c_start c_end).rootNHist i = 0)
    := by
  rw [thread_body_rootNHist]
  refine ⟨fun i => normalize_nonneg _ _ i, fun hne => ?_, fun he i => ?_⟩
  · refine normalize_sum_one _ _ ?_
    rw [accum_root_sum ctx node c_start c_end hvalid]
    exact List.length_pos.mpr hne
  · rw [normalize_apply, if_neg]
    rw [accum_root_sum ctx node c_start c_end hvalid, he]
    simp

/-- Witness for C5 at the concrete context: the published distribution of
the two-pixel node sums to `1`. -/
theorem leaf_distribution_valid_witness :
    (∀ p ∈ exNode.pixels, pixelLabel exCtx p < exCtx.n_labels) ∧
    ∑ i ∈ Finset.range exCtx.n_labels,
      (thread_body_iteration exCtx exNode 0 1).rootNHist i = 1 := by
  have hv : ∀ p ∈ exNode.pixels, pixelLabel exCtx p < exCtx.n_labels := by
    decide
  exact ⟨hv, (leaf_distribution_valid exCtx exNode 0 1 hv).2.1 (by decide)⟩

/-- C4: the partitioner assigns each parent pixel to exactly one child by
re-evaluating the winning feature and threshold (left exactly when
`f < t`), the child pixel counts sum to the parent's pixel count, and the
recorded counts equal the actual appended counts even when the hint sizes
differed. -/
theorem collect_pixels_spec (ctx : TrainContext) (node : NodeTrainData)
    (uv : UVPair) (t : ℚ) (hint : ℕ × ℕ) :
    (collect_pixels ctx node uv t hint).1.length +
      (collect_pixels ctx node uv t hint).2.1.length = node.pixels.length
    ∧ (∀ p ∈ node.pixels,
        (featureUV ctx p uv < t →
          p ∈ (collect_pixels ctx node uv t hint).1 ∧
          p ∉ (collect_pixels ctx node uv t hint).2.1)
        ∧ (¬ featureUV ctx p uv < t →
          p ∈ (collect_pixels ctx node uv t hint).2.1 ∧
          p ∉ (collect_pixels ctx node uv t hint).1))
    ∧ (collect_pixels ctx node uv t hint).2.2.1 =
        (collect_pixels ctx node uv t hint).1.length
    ∧ (collect_pixels ctx node uv t hint).2.2.2 =
        (collect_pixels ctx node uv t hint).2.1.length := by
  simp only [collect_pixels, List.partition_eq_filter_filter]
  refine ⟨?_, fun p hp => ⟨fun hf => ?_, fun hf => ?_⟩, ?_, ?_⟩
  · rw [← List.countP_eq_length_filter, ← List.countP_eq_length_filter,
      node.pixels.length_eq_countP_add_countP
        (fun p => decide (featureUV ctx p uv < t))]
    congr 1
    refine List.countP_congr fun a _ => ?_
    simp [Function.comp]
  · constructor
    · exact List.mem_filter.mpr ⟨hp, by simpa using hf⟩
    · intro hmem
      have h2 := (List.mem_filter.mp hmem).2
      have h3 : ¬ featureUV ctx p uv < t := by simpa using h2
      exact h3 hf
  · constructor
    · exact List.mem_filter.mpr ⟨hp, by simpa using hf⟩
    · intro hmem
      have h2 := (List.mem_filter.mp hmem).2
      have h3 : featureUV ctx p uv < t := by simpa using h2
      exact hf h3
  · by_cases hh : hint.1 = (node.pixels.filter
        (fun p => decide (featureUV ctx p uv < t))).length
    · simp [hh]
    · simp [hh]
  · by_cases hh : hint.2 = (node.pixels.filter
        (fun p => !decide (featureUV ctx p uv < t))).length
    · simp [hh]
    · simp [hh]

/-- Witness for C4 at the concrete context: the two child counts sum to the
parent's two pixels, with a deliberately wrong hint. -/
theorem collect_pixels_spec_witness :
    (collect_pixels exCtx exNode ⟨0, 0, 0, 0⟩ 0 (5, 7)).1.length +
      (collect_pixels exCtx exNode ⟨0, 0, 0, 0⟩ 0 (5, 7)).2.1.length =
        exNode.pixels.length ∧
    (collect_pixels exCtx exNode ⟨0, 0, 0, 0⟩ 0 (5, 7)).2.2.1 =
      (collect_pixels exCtx exNode ⟨0, 0, 0, 0⟩ 0 (5, 7)).1.length :=
  ⟨(collect_pixels_spec exCtx exNode ⟨0, 0, 0, 0⟩ 0 (5, 7)).1,
   (collect_pixels_spec exCtx exNode ⟨0, 0, 0, 0⟩ 0 (5, 7)).2.2.1⟩

/-- A reduction fold over worker indices none of whose gains beat the
current best leaves the state unchanged. -/
theorem foldl_reduceStep_skip (g : List ℚ) (l : List ℕ) (st : Option ℕ × ℚ)
    (h : ∀ i ∈ l, g.getD i 0 ≤ st.2) :
    l.foldl (reduceStep g) st = st := by
  induction l with
  | nil => rfl
  | cons i rest ih =>
    rw [List.foldl_cons]
    have hs : reduceStep g st i = st := by
      simp only [reduceStep]
      rw [if_neg (not_lt.mpr (h i (List.mem_cons_self i rest)))]
    rw [hs]
    exact ih fun j hj => h j (List.mem_cons_of_mem i hj)

/-- The gain component of the reduction fold is the running maximum of the
encountered gains. -/
theorem foldl_reduceStep_snd (g : List ℚ) (l : List ℕ) (st : Option ℕ × ℚ) :
    (l.foldl (reduceStep g) st).2 =
      l.foldl (fun a i => max a (g.getD i 0)) st.2 := by
  induction l generalizing st with
  | nil => rfl
  | cons i rest ih =>
    rw [List.foldl_cons, List.foldl_cons, ih]
    congr 1
    simp only [reduceStep]
    split
    · next hlt => exact (max_eq_right (le_of_lt hlt)).symm
    · next hlt => exact (max_eq_left (not_lt.mp hlt)).symm

/-- A running maximum stays strictly below any strict upper bound of its
seed and of the folded values. -/
theorem foldl_max_lt (g : List ℚ) (l : List ℕ) (a B : ℚ) (ha : a < B)
    (h : ∀ i ∈ l, g.getD i 0 < B) :
    l.foldl (fun x i => max x (g.getD i 0)) a < B := by
  induction l generalizing a with
  | nil => exact ha
  | cons i rest ih =>
    rw [List.foldl_cons]
    exact ih _ (max_lt ha (h i (List.mem_cons_self i rest)))
      fun j hj => h j (List.mem_cons_of_mem i hj)

/-- The reduction over the first `n` workers selects the first worker whose
gain is positive, strictly above every earlier gain and at least every
other gain. -/
theorem foldl_reduceStep_selects (g : List ℚ) (n j : ℕ) (hj : j < n)
    (hpos : 0 < g.getD j 0)
    (hbefore : ∀ k, k < j → g.getD k 0 < g.getD j 0)
    (hall : ∀ k, k < n → g.getD k 0 ≤ g.getD j 0) :
    (List.range n).foldl (reduceStep g) (none, 0) = (some j, g.getD j 0) := by
  induction n with
  | zero => omega
  | succ m ih =>
    rw [List.range_succ, List.foldl_append, List.foldl_cons, List.foldl_nil]
    rcases Nat.lt_or_ge j m with hjm | hjm
    · rw [ih hjm fun k hk => hall k (Nat.lt_succ_of_lt hk)]
      simp only [reduceStep]
      rw [if_neg (not_lt.mpr (hall m (Nat.lt_succ_self m)))]
    · have hjeq : j = m := by omega
      subst hjeq
      have hsnd : ((List.range j).foldl (reduceStep g) (none, 0)).2 <
          g.getD j 0 := by
        rw [foldl_reduceStep_snd]
        exact foldl_max_lt g _ 0 _ hpos
          fun k hk => hbefore k (List.mem_range.mp hk)
      simp only [reduceStep]
      rw [if_pos hsnd]

/-- C3: the coordinator's reduction selects the worker with the strictly
greatest best gain, iterating in ascending index with a strict comparison,
so earlier workers win ties; when every worker reports gain `0` no worker
is selected, the best gain stays `0`, and the split decision fails, making
the node a leaf. -/
theorem reduceBest_spec (best_gains : List ℚ) :
    ((∀ i, i < best_gains.length → best_gains.getD i 0 = 0) →
      reduceBest best_gains = (none, 0) ∧
      ∀ d m, splitDecision (reduceBest best_gains).2 d m = false)
    ∧ (∀ j, j < best_gains.length → 0 < best_gains.getD j 0 →
        (∀ k, k < j → best_gains.getD k 0 < best_gains.getD j 0) →
        (∀ k, k < best_gains.length →
          best_gains.getD k 0 ≤ best_gains.getD j 0) →
        reduceBest best_gains = (some j, best_gains.getD j 0)) := by
  constructor
  · intro hz
    have hred : reduceBest best_gains = (none, 0) := by
      rw [reduceBest]
      exact foldl_reduceStep_skip _ _ _ fun i hi =>
        le_of_eq (hz i (List.mem_range.mp hi))
    refine ⟨hred, fun d m => ?_⟩
    rw [hred]
    simp [splitDecision]
  · intro j hj hpos hbefore hall
    rw [reduceBest]
    exact foldl_reduceStep_selects best_gains _ j hj hpos hbefore hall

/-- Witness for C3: with gains `[1/2, 1, 1, 0]` the reduction selects
worker 1, the earlier of the two tied maxima; with all-zero gains `[0, 0]`
no worker is selected. -/
theorem reduceBest_spec_witness :
    reduceBest [1/2, 1, 1, 0] = (some 1, 1) ∧
    reduceBest [0, 0] = (none, 0) := by
  constructor
  · have h := (reduceBest_spec [1/2, 1, 1, 0]).2 1 (by norm_num)
      (by norm_num [List.getD_cons_zero, List.getD_cons_succ])
      (by
        intro k hk
        obtain rfl := Nat.lt_one_iff.mp hk
        norm_num [List.getD_cons_zero, List.getD_cons_succ])
      (by
        intro k hk
        have hk4 : k < 4 := by simpa using hk
        interval_cases k <;>
          norm_num [List.getD_cons_zero, List.getD_cons_succ])
    simpa using h
  · refine ((reduceBest_spec [0, 0]).1 ?_).1
    intro i hi
    have hi2 : i < 2 := by simpa using hi
    interval_cases i <;>
      norm_num [List.getD_cons_zero, List.getD_cons_succ]

/-- C9 counterexample: at `n_t = 1` and `t_range = 1` the divisor
`n_t - 1` is zero, and the claimed inclusive upper endpoint
`ts[n_t - 1] = +t_range/2` fails (the float code divides by zero; the
exact embedding yields `-t_range/2`). -/
theorem make_ts_single_counterexample :
    ¬ (make_ts 1 1 0 = -(1 : ℚ) / 2 ∧ make_ts 1 1 (1 - 1) = (1 : ℚ) / 2) := by
  intro h
  have h2 := h.2
  norm_num [make_ts] at h2

/-- C9 (amended to `n_t ≥ 2`): the thresholds are evenly spaced over
`[-t_range/2, +t_range/2]` inclusive:
`ts[i] = -t_range/2 + i·t_range/(n_t-1)`, with `ts[0] = -t_range/2`,
`ts[n_t-1] = +t_range/2` and constant consecutive spacing. -/
theorem make_ts_spec (n_t : ℕ) (t_range : ℚ) (h2 : 2 ≤ n_t) :
    (∀ i, make_ts n_t t_range i =
      -t_range / 2 + (i : ℚ) * t_range / ((n_t - 1 : ℕ) : ℚ))
    ∧ make_ts n_t t_range 0 = -t_range / 2
    ∧ make_ts n_t t_range (n_t - 1) = t_range / 2
    ∧ (∀ i, make_ts n_t t_range (i + 1) - make_ts n_t t_range i =
        t_range / ((n_t - 1 : ℕ) : ℚ)) := by
  have hne : ((n_t - 1 : ℕ) : ℚ) ≠ 0 := by
    have h1 : 0 < n_t - 1 := by omega
    exact_mod_cast h1.ne'
  refine ⟨fun i => rfl, ?_, ?_, fun i => ?_⟩
  · simp [make_ts]
  · simp only [make_ts]
    rw [mul_div_assoc, mul_comm, div_mul_cancel₀ _ hne]
    ring
  · simp only [make_ts]
    push_cast
    field_simp
    ring

/-- Witness for C9's amended statement at `n_t = 3`, `t_range = 1`. -/
theorem make_ts_spec_witness :
    make_ts 3 1 (3 - 1) = (1 : ℚ) / 2 := by
  have h := (make_ts_spec 3 1 (by norm_num)).2.2.1
  simpa using h

/-- C6: a worker publishes best gain `0` with no recorded candidate
whenever the root histogram has at most one non-empty label or the node
sits at depth `max_depth - 1`; at that final depth the histogram engine
also leaves every left/right cell at zero. -/
theorem early_exit_spec (ctx : TrainContext) (node : NodeTrainData)
    (c_start c_end : ℕ) (_hmd : 1 ≤ ctx.max_depth)
    (h : (normalize_histogram
        (accumulate_histograms ctx node c_start c_end).root
        ctx.n_labels).2.2 ≤ 1 ∨ node.depth = ctx.max_depth - 1) :
    (thread_body_iteration ctx node c_start c_end).bestGain = 0
    ∧ (thread_body_iteration ctx node c_start c_end).best = none
    ∧ (node.depth = ctx.max_depth - 1 →
        ∀ c t side lb,
          (accumulate_histograms ctx node c_start c_end).lr c t side lb = 0)
    := by
  have hguard : ¬ (1 < (normalize_histogram
      (accumulate_histograms ctx node c_start c_end).root
      ctx.n_labels).2.2 ∧ node.depth < ctx.max_depth - 1) := by
    rcases h with h | h
    · exact fun hc => absurd hc.1 (not_lt.mpr h)
    · exact fun hc => absurd hc.2 (by omega)
  refine ⟨?_, ?_, fun hd c t side lb => ?_⟩
  · simp only [thread_body_iteration, if_neg hguard]
  · simp only [thread_body_iteration, if_neg hguard]
  · have hfin := foldl_accumStep_lr_final ctx node.depth c_start c_end
      node.pixels emptyHists (by omega)
    rw [accumulate_histograms, hfin]
    rfl

/-- Witness for C6: the node at the final depth of the concrete context
records no candidate and accumulates empty left/right histograms. -/
theorem early_exit_spec_witness :
    (thread_body_iteration exCtx exNodeFinal 0 1).best = none ∧
    (accumulate_histograms exCtx exNodeFinal 0 1).lr 0 0 true 0 = 0 := by
  have h := early_exit_spec exCtx exNodeFinal 0 1 (by decide)
    (Or.inr (by decide))
  exact ⟨h.2.1, h.2.2 (by decide) 0 0 true 0⟩

/-- C10: the histogram-accumulation pass counts all of the current node's
pixels into the root histogram regardless of the worker's uv stripe, so the
normalised root histogram a worker publishes (in particular worker 0's
shared `root_nhistogram` buffer, even with an empty stripe) is recomputed
for the current node: it equals the normalised per-label pixel count of the
current node's pixels. -/
theorem root_nhistogram_fresh (ctx : TrainContext) (node : NodeTrainData)
    (c_start c_end c_start' c_end' : ℕ)
    (_hvalid : ∀ p ∈ node.pixels, pixelLabel ctx p < ctx.n_labels) :
    (thread_body_iteration ctx node c_start c_end).rootNHist =
      (thread_body_iteration ctx node c_start' c_end').rootNHist
    ∧ (thread_body_iteration ctx node c_start c_end).rootNHist =
      (normalize_histogram
        (fun lb => node.pixels.countP fun p => decide (pixelLabel ctx p = lb))
        ctx.n_labels).1 := by
  have hroot : ∀ cs ce, (accumulate_histograms ctx node cs ce).root =
      fun lb => node.pixels.countP fun p => decide (pixelLabel ctx p = lb) := by
    intro cs ce
    funext lb
    exact accum_root_apply ctx node cs ce lb
  constructor
  · rw [thread_body_rootNHist, thread_body_rootNHist, hroot, hroot]
  · rw [thread_body_rootNHist, hroot]

/-- Witness for C10: worker stripes `[0, 1)` and the empty stripe `[1, 1)`
publish the same normalised root histogram for the concrete node. -/
theorem root_nhistogram_fresh_witness :
    (thread_body_iteration exCtx exNode 0 1).rootNHist =
      (thread_body_iteration exCtx exNode 1 1).rootNHist :=
  (root_nhistogram_fresh exCtx exNode 0 1 1 1 (by decide)).1

/-- The per-side totals of an in-stripe candidate pair count the pixels the
feature test sends to that side. -/
theorem accum_lr_sum (ctx : TrainContext) (node : NodeTrainData)
    (c_start c_end c t : ℕ) (side : Bool)
    (hd : node.depth < ctx.max_depth - 1)
    (hc1 : c_start ≤ c) (hc2 : c < c_end) (ht : t < ctx.n_t)
    (hvalid : ∀ p ∈ node.pixels, pixelLabel ctx p < ctx.n_labels) :
    ∑ lb ∈ Finset.range ctx.n_labels,
      (accumulate_histograms ctx node c_start c_end).lr c t side lb =
    node.pixels.countP
      (fun p => side == decide (featureVal ctx p c < ctx.ts t)) := by
  have h1 : ∀ lb, (accumulate_histograms ctx node c_start c_end).lr c t side lb
      = node.pixels.countP (fun p => decide (pixelLabel ctx p = lb) &&
          (side == decide (featureVal ctx p c < ctx.ts t))) := by
    intro lb
    rw [accumulate_histograms, foldl_accumStep_lr ctx node.depth c_start c_end
      node.pixels emptyHists c t side lb hd hc1 hc2 ht]
    simp [emptyHists]
  rw [Finset.sum_congr rfl fun lb _ => h1 lb,
    sum_countP_label _ _ _ _ hvalid]

/-- Counting the pixels sent left plus the pixels sent right yields all
pixels. -/
theorem countP_sides {α : Type} (l : List α) (f : α → Bool) :
    l.countP (fun p => true == f p) + l.countP (fun p => false == f p) =
      l.length := by
  have h1 : l.countP (fun p => true == f p) = l.countP f :=
    List.countP_congr fun a _ => by simp
  have h2 : l.countP (fun p => false == f p) =
      l.countP (fun a => decide ¬(f a = true)) :=
    List.countP_congr fun a _ => by simp
  rw [h1, h2]
  exact (l.length_eq_countP_add_countP f).symm

/-- The candidate loop never records a pair whose skip test fires. -/
theorem foldl_candidate_not_best (ctx : TrainContext) (hists : Hists)
    (N : ℕ) (H : ℝ) (c t : ℕ)
    (hskip : (normalize_histogram (hists.lr c t true) ctx.n_labels).2.1 = 0 ∨
        (normalize_histogram (hists.lr c t true) ctx.n_labels).2.1 = N)
    (l : List (ℕ × ℕ)) (st : BestState) (hst : st.best ≠ some (c, t)) :
    (l.foldl (candidateStep ctx hists N H) st).best ≠ some (c, t) := by
  induction l generalizing st with
  | nil => exact hst
  | cons p rest ih =>
    rw [List.foldl_cons]
    refine ih _ ?_
    by_cases hp : p = (c, t)
    · subst hp
      simp only [candidateStep]
      rw [if_pos hskip]
      exact hst
    · simp only [candidateStep]
      split
      · exact hst
      · split
        · intro hcon
          exact hp (Option.some.inj hcon)
        · exact hst

/-- C2: a candidate pair of the worker's stripe whose split is trivial
(either side empty or holding all of the node's pixels) is skipped by the
candidate loop and is never published as the worker's best candidate. -/
theorem trivial_split_never_best (ctx : TrainContext) (node : NodeTrainData)
    (c_start c_end c t : ℕ)
    (hvalid : ∀ p ∈ node.pixels, pixelLabel ctx p < ctx.n_labels)
    (hc1 : c_start ≤ c) (hc2 : c < c_end) (ht : t < ctx.n_t)
    (htriv :
      (∑ lb ∈ Finset.range ctx.n_labels,
        (accumulate_histograms ctx node c_start c_end).lr c t true lb) = 0 ∨
      (∑ lb ∈ Finset.range ctx.n_labels,
        (accumulate_histograms ctx node c_start c_end).lr c t true lb) =
        ∑ lb ∈ Finset.range ctx.n_labels,
          (accumulate_histograms ctx node c_start c_end).root lb ∨
      (∑ lb ∈ Finset.range ctx.n_labels,
        (accumulate_histograms ctx node c_start c_end).lr c t false lb) = 0 ∨
      (∑ lb ∈ Finset.range ctx.n_labels,
        (accumulate_histograms ctx node c_start c_end).lr c t false lb) =
        ∑ lb ∈ Finset.range ctx.n_labels,
          (accumulate_histograms ctx node c_start c_end).root lb) :
    (thread_body_iteration ctx node c_start c_end).best ≠ some (c, t) := by
  simp only [thread_body_iteration]
  split
  case isFalse h => simp
  case isTrue hguard =>
    simp only
    have hd : node.depth < ctx.max_depth - 1 := hguard.2
    have hL := accum_lr_sum ctx node c_start c_end c t true hd hc1 hc2 ht
      hvalid
    have hR := accum_lr_sum ctx node c_start c_end c t false hd hc1 hc2 ht
      hvalid
    have hNlen := accum_root_sum ctx node c_start c_end hvalid
    have hLR : (∑ lb ∈ Finset.range ctx.n_labels,
        (accumulate_histograms ctx node c_start c_end).lr c t true lb) +
        (∑ lb ∈ Finset.range ctx.n_labels,
          (accumulate_histograms ctx node c_start c_end).lr c t false lb) =
        ∑ lb ∈ Finset.range ctx.n_labels,
          (accumulate_histograms ctx node c_start c_end).root lb := by
      rw [hL, hR, hNlen]
      exact countP_sides node.pixels _
    have hskip : (normalize_histogram
        ((accumulate_histograms ctx node c_start c_end).lr c t true)
        ctx.n_labels).2.1 = 0 ∨
        (normalize_histogram
          ((accumulate_histograms ctx node c_start c_end).lr c t true)
          ctx.n_labels).2.1 =
        (normalize_histogram
          (accumulate_histograms ctx node c_start c_end).root
          ctx.n_labels).2.1 := by
      rw [normalize_total, normalize_total]
      omega
    exact foldl_candidate_not_best ctx _ _ _ c t hskip _ initBest
      (by simp [initBest])

/-- Witness for C2: in the concrete context the single candidate pair sends
both pixels right (the left side is empty), so the worker records no best
pair. -/
theorem trivial_split_never_best_witness :
    (thread_body_iteration exCtx exNode 0 1).best ≠ some (0, 0) := by
  have hfeat : ∀ p ∈ exNode.pixels, featureVal exCtx p 0 = 0 := by
    intro p hp
    fin_cases hp <;>
      norm_num [featureVal, featureUV, sample_uv, pixelDepth, exCtx, exNode,
        ratTrunc]
  refine trivial_split_never_best exCtx exNode 0 1 0 0 (by decide)
    (by decide) (by decide) (by decide) ?_
  left
  rw [accum_lr_sum exCtx exNode 0 1 0 0 true (by decide) (by decide)
    (by decide) (by decide) (by decide)]
  refine List.countP_eq_zero.mpr fun a ha => ?_
  simp only [hfeat a ha]
  norm_num [exCtx]

/-- Normalised histogram entries never exceed `1`. -/
theorem normalize_le_one (h : ℕ → ℕ) (n i : ℕ) (hi : i ∈ Finset.range n) :
    (normalize_histogram h n).1 i ≤ 1 := by
  rw [normalize_apply]
  split
  case isTrue hpos =>
    rw [div_le_one (by exact_mod_cast hpos)]
    exact_mod_cast Finset.single_le_sum (f := fun j => h j)
      (fun j _ => Nat.zero_le (h j)) hi
  case isFalse => norm_num

/-- The skip of entries outside `(0, 1)` is invisible: the source's entropy
equals the full `negMulLog` sum divided by `log 2`, because `negMulLog`
vanishes at `0` and `1`. -/
theorem entropy_eq_negMulLog (nh : ℕ → ℚ) (n : ℕ)
    (hb : ∀ i ∈ Finset.range n, 0 ≤ nh i ∧ nh i ≤ 1) :
    calculate_shannon_entropy nh n =
      (∑ i ∈ Finset.range n, Real.negMulLog ((nh i : ℝ))) / Real.log 2 := by
  rw [calculate_shannon_entropy, Finset.sum_div]
  refine Finset.sum_congr rfl fun i hi => ?_
  obtain ⟨h0, h1⟩ := hb i hi
  by_cases hz : (0 : ℚ) < nh i
  · by_cases ho : nh i < 1
    · rw [if_pos ⟨hz, ho⟩]
      simp only [Real.negMulLog, Real.logb]
      ring
    · have he : nh i = 1 := le_antisymm h1 (not_lt.mp ho)
      rw [if_neg (by rw [he]; intro hcon; exact lt_irrefl 1 hcon.2), he]
      simp
  · have he : nh i = 0 := le_antisymm (not_lt.mp hz) h0
    rw [if_neg (by rw [he]; intro hcon; exact lt_irrefl 0 hcon.1), he]
    simp

/-- Folding a weight into the matching normalised entry rescales the entry
to the combined total. -/
theorem weight_cancel (c d x : ℝ) (hc : c ≠ 0) (hd : d ≠ 0) :
    c / d * (x / c) = x / d := by
  field_simp
  ring

/-- C8: for an impure parent histogram and a non-trivial split (both sides
holding at least one pixel), the information gain computed by
`calculate_gain` from the Shannon entropies of the normalised parent and
child histograms is non-negative. -/
theorem gain_nonneg (l r : ℕ → ℕ) (n : ℕ)
    (hl : 0 < ∑ i ∈ Finset.range n, l i)
    (hr : 0 < ∑ i ∈ Finset.range n, r i)
    (_himpure : 2 ≤ (normalize_histogram (fun i => l i + r i) n).2.2) :
    0 ≤ calculate_gain
        (calculate_shannon_entropy
          (normalize_histogram (fun i => l i + r i) n).1 n)
        (normalize_histogram (fun i => l i + r i) n).2.1
        (calculate_shannon_entropy (normalize_histogram l n).1 n)
        (normalize_histogram l n).2.1
        (calculate_shannon_entropy (normalize_histogram r n).1 n)
        (normalize_histogram r n).2.1 := by
  have hNsum : ∑ i ∈ Finset.range n, (l i + r i) =
      (∑ i ∈ Finset.range n, l i) + (∑ i ∈ Finset.range n, r i) :=
    Finset.sum_add_distrib
  have hN : 0 < ∑ i ∈ Finset.range n, (l i + r i) := by
    rw [hNsum]; omega
  have hTroot : (normalize_histogram (fun i => l i + r i) n).2.1 =
      ∑ i ∈ Finset.range n, (l i + r i) := normalize_total _ n
  have hTl : (normalize_histogram l n).2.1 = ∑ i ∈ Finset.range n, l i :=
    normalize_total l n
  have hTr : (normalize_histogram r n).2.1 = ∑ i ∈ Finset.range n, r i :=
    normalize_total r n
  have hbounds : ∀ (h : ℕ → ℕ), ∀ i ∈ Finset.range n,
      0 ≤ (normalize_histogram h n).1 i ∧
        (normalize_histogram h n).1 i ≤ 1 :=
    fun h i hi => ⟨normalize_nonneg h n i, normalize_le_one h n i hi⟩
  rw [calculate_gain, hTroot, hTl, hTr,
    entropy_eq_negMulLog _ n (hbounds _),
    entropy_eq_negMulLog _ n (hbounds _),
    entropy_eq_negMulLog _ n (hbounds _)]
  have hlog2 : (0 : ℝ) < Real.log 2 := Real.log_pos (by norm_num)
  have hAR : (0 : ℝ) < ((∑ i ∈ Finset.range n, l i : ℕ) : ℝ) := by
    exact_mod_cast hl
  have hBR : (0 : ℝ) < ((∑ i ∈ Finset.range n, r i : ℕ) : ℝ) := by
    exact_mod_cast hr
  have hA0 : ((∑ i ∈ Finset.range n, l i : ℕ) : ℝ) ≠ 0 := ne_of_gt hAR
  have hB0 : ((∑ i ∈ Finset.range n, r i : ℕ) : ℝ) ≠ 0 := ne_of_gt hBR
  have hAB0 : ((∑ i ∈ Finset.range n, l i : ℕ) : ℝ) +
      ((∑ i ∈ Finset.range n, r i : ℕ) : ℝ) ≠ 0 := by positivity
  have hkey :
      ((∑ i ∈ Finset.range n, l i : ℕ) : ℝ) /
          (((∑ i ∈ Finset.range n, l i : ℕ) : ℝ) +
           ((∑ i ∈ Finset.range n, r i : ℕ) : ℝ)) *
        (∑ i ∈ Finset.range n,
          Real.negMulLog (((normalize_histogram l n).1 i : ℝ))) +
      ((∑ i ∈ Finset.range n, r i : ℕ) : ℝ) /
          (((∑ i ∈ Finset.range n, l i : ℕ) : ℝ) +
           ((∑ i ∈ Finset.range n, r i : ℕ) : ℝ)) *
        (∑ i ∈ Finset.range n,
          Real.negMulLog (((normalize_histogram r n).1 i : ℝ))) ≤
      ∑ i ∈ Finset.range n,
        Real.negMulLog
          (((normalize_histogram (fun i => l i + r i) n).1 i : ℝ)) := by
    rw [Finset.mul_sum, Finset.mul_sum, ← Finset.sum_add_distrib]
    refine Finset.sum_le_sum fun i hi => ?_
    have hel : ((normalize_histogram l n).1 i : ℝ) =
        (l i : ℝ) / ((∑ j ∈ Finset.range n, l j : ℕ) : ℝ) := by
      rw [normalize_apply, if_pos hl]
      push_cast
      ring
    have her : ((normalize_histogram r n).1 i : ℝ) =
        (r i : ℝ) / ((∑ j ∈ Finset.range n, r j : ℕ) : ℝ) := by
      rw [normalize_apply, if_pos hr]
      push_cast
      ring
    have heroot : ((normalize_histogram (fun i => l i + r i) n).1 i : ℝ) =
        ((l i : ℝ) + (r i : ℝ)) /
          (((∑ j ∈ Finset.range n, l j : ℕ) : ℝ) +
           ((∑ j ∈ Finset.range n, r j : ℕ) : ℝ)) := by
      rw [normalize_apply, if_pos hN]
      rw [hNsum]
      push_cast
      ring
    rw [hel, her, heroot]
    have hx : (l i : ℝ) / ((∑ j ∈ Finset.range n, l j : ℕ) : ℝ) ∈
        Set.Ici (0 : ℝ) := Set.mem_Ici.mpr (by positivity)
    have hy : (r i : ℝ) / ((∑ j ∈ Finset.range n, r j : ℕ) : ℝ) ∈
        Set.Ici (0 : ℝ) := Set.mem_Ici.mpr (by positivity)
    have hwa : (0 : ℝ) ≤ ((∑ j ∈ Finset.range n, l j : ℕ) : ℝ) /
        (((∑ j ∈ Finset.range n, l j : ℕ) : ℝ) +
         ((∑ j ∈ Finset.range n, r j : ℕ) : ℝ)) := by positivity
    have hwb : (0 : ℝ) ≤ ((∑ j ∈ Finset.range n, r j : ℕ) : ℝ) /
        (((∑ j ∈ Finset.range n, l j : ℕ) : ℝ) +
         ((∑ j ∈ Finset.range n, r j : ℕ) : ℝ)) := by positivity
    have hwsum : ((∑ j ∈ Finset.range n, l j : ℕ) : ℝ) /
        (((∑ j ∈ Finset.range n, l j : ℕ) : ℝ) +
         ((∑ j ∈ Finset.range n, r j : ℕ) : ℝ)) +
        ((∑ j ∈ Finset.range n, r j : ℕ) : ℝ) /
        (((∑ j ∈ Finset.range n, l j : ℕ) : ℝ) +
         ((∑ j ∈ Finset.range n, r j : ℕ) : ℝ)) = 1 := by
      rw [div_add_div_same, div_self hAB0]
    have hconc := Real.concaveOn_negMulLog.2 hx hy hwa hwb hwsum
    simp only [smul_eq_mul] at hconc
    have hxy : ((∑ j ∈ Finset.range n, l j : ℕ) : ℝ) /
        (((∑ j ∈ Finset.range n, l j : ℕ) : ℝ) +
         ((∑ j ∈ Finset.range n, r j : ℕ) : ℝ)) *
          ((l i : ℝ) / ((∑ j ∈ Finset.range n, l j : ℕ) : ℝ)) +
        ((∑ j ∈ Finset.range n, r j : ℕ) : ℝ) /
        (((∑ j ∈ Finset.range n, l j : ℕ) : ℝ) +
         ((∑ j ∈ Finset.range n, r j : ℕ) : ℝ)) *
          ((r i : ℝ) / ((∑ j ∈ Finset.range n, r j : ℕ) : ℝ)) =
        ((l i : ℝ) + (r i : ℝ)) /
          (((∑ j ∈ Finset.range n, l j : ℕ) : ℝ) +
           ((∑ j ∈ Finset.range n, r j : ℕ) : ℝ)) := by
      rw [weight_cancel _ _ _ hA0 hAB0, weight_cancel _ _ _ hB0 hAB0,
        div_add_div_same]
    rw [hxy] at hconc
    exact hconc
  rw [sub_nonneg]
  have hcast : ((((∑ i ∈ Finset.range n, l i) +
      (∑ i ∈ Finset.range n, r i) : ℕ)) : ℝ) =
      ((∑ i ∈ Finset.range n, l i : ℕ) : ℝ) +
      ((∑ i ∈ Finset.range n, r i : ℕ) : ℝ) := by push_cast; ring
  rw [hNsum, hcast]
  have hk : (0 : ℝ) ≤ (Real.log 2)⁻¹ := le_of_lt (inv_pos.mpr hlog2)
  calc ((∑ i ∈ Finset.range n, l i : ℕ) : ℝ) /
        (((∑ i ∈ Finset.range n, l i : ℕ) : ℝ) +
         ((∑ i ∈ Finset.range n, r i : ℕ) : ℝ)) *
        ((∑ i ∈ Finset.range n,
          Real.negMulLog (((normalize_histogram l n).1 i : ℝ))) /
          Real.log 2) +
      ((∑ i ∈ Finset.range n, r i : ℕ) : ℝ) /
        (((∑ i ∈ Finset.range n, l i : ℕ) : ℝ) +
         ((∑ i ∈ Finset.range n, r i : ℕ) : ℝ)) *
        ((∑ i ∈ Finset.range n,
          Real.negMulLog (((normalize_histogram r n).1 i : ℝ))) /
          Real.log 2)
      = (((∑ i ∈ Finset.range n, l i : ℕ) : ℝ) /
          (((∑ i ∈ Finset.range n, l i : ℕ) : ℝ) +
           ((∑ i ∈ Finset.range n, r i : ℕ) : ℝ)) *
          (∑ i ∈ Finset.range n,
            Real.negMulLog (((normalize_histogram l n).1 i : ℝ))) +
         ((∑ i ∈ Finset.range n, r i : ℕ) : ℝ) /
          (((∑ i ∈ Finset.range n, l i : ℕ) : ℝ) +
           ((∑ i ∈ Finset.range n, r i : ℕ) : ℝ)) *
          (∑ i ∈ Finset.range n,
            Real.negMulLog (((normalize_histogram r n).1 i : ℝ)))) *
        (Real.log 2)⁻¹ := by ring
    _ ≤ (∑ i ∈ Finset.range n,
          Real.negMulLog
            (((normalize_histogram (fun i => l i + r i) n).1 i : ℝ))) *
        (Real.log 2)⁻¹ := mul_le_mul_of_nonneg_right hkey hk
    _ = (∑ i ∈ Finset.range n,
          Real.negMulLog
            (((normalize_histogram (fun i => l i + r i) n).1 i : ℝ))) /
        Real.log 2 := by ring

/-- Witness for C8: a two-label split separating one pixel of each label
has non-negative gain. -/
theorem gain_nonneg_witness :
    (0 < ∑ i ∈ Finset.range 2, (if i = 0 then 1 else 0)) ∧
    (0 < ∑ i ∈ Finset.range 2, (if i = 1 then 1 else 0)) ∧
    0 ≤ calculate_gain
        (calculate_shannon_entropy
          (normalize_histogram
            (fun i => (if i = 0 then 1 else 0) + (if i = 1 then 1 else 0))
            2).1 2)
        (normalize_histogram
          (fun i => (if i = 0 then 1 else 0) + (if i = 1 then 1 else 0))
          2).2.1
        (calculate_shannon_entropy
          (normalize_histogram (fun i => if i = 0 then 1 else 0) 2).1 2)
        (normalize_histogram (fun i => if i = 0 then 1 else 0) 2).2.1
        (calculate_shannon_entropy
          (normalize_histogram (fun i => if i = 1 then 1 else 0) 2).1 2)
        (normalize_histogram (fun i => if i = 1 then 1 else 0) 2).2.1 := by
  refine ⟨by decide, by decide, ?_⟩
  exact gain_nonneg (fun i => if i = 0 then 1 else 0)
    (fun i => if i = 1 then 1 else 0) 2 (by decide) (by decide) (by decide)

/-- C7: on resume, the program fails with a data error before any training
begins when the checkpoint's label count differs from the dataset's, when
its field of view differs by more than `1e-6`, or when its saved depth
exceeds the requested maximum depth; and it fails reporting the tree
already complete when the frontier queue reconstructed by walking the
saved tree is empty. -/
theorem restore_checkpoint_spec (ctx : TrainContext) (rootPixels : List Pixel)
    (chk : Checkpoint) :
    (chk.n_labels ≠ ctx.n_labels →
      restore_checkpoint ctx rootPixels chk = .error .labelsMismatch)
    ∧ (chk.n_labels = ctx.n_labels →
      |chk.fov - ctx.fov| > 1 / 1000000 →
      restore_checkpoint ctx rootPixels chk = .error .fovMismatch)
    ∧ (chk.n_labels = ctx.n_labels →
      ¬ |chk.fov - ctx.fov| > 1 / 1000000 →
      ctx.max_depth < chk.depth →
      restore_checkpoint ctx rootPixels chk =
        .error .depthExceedsCheckpoint)
    ∧ (chk.n_labels = ctx.n_labels →
      ¬ |chk.fov - ctx.fov| > 1 / 1000000 →
      ¬ ctx.max_depth < chk.depth →
      (walkCheckpoint ctx chk rootPixels).1 = [] →
      restore_checkpoint ctx rootPixels chk = .error .alreadyComplete) := by
  refine ⟨fun h1 => ?_, fun h1 h2 => ?_, fun h1 h2 h3 => ?_,
    fun h1 h2 h3 h4 => ?_⟩
  · simp only [restore_checkpoint, if_pos h1]
  · simp only [restore_checkpoint, if_neg (not_ne_iff.mpr h1), if_pos h2]
  · simp only [restore_checkpoint, if_neg (not_ne_iff.mpr h1), if_neg h2,
      if_pos h3]
  · simp only [restore_checkpoint, if_neg (not_ne_iff.mpr h1), if_neg h2,
      if_neg h3, if_pos h4]

/-- Witness for C7: each of the four failing checkpoints of the concrete
context produces the corresponding error. -/
theorem restore_checkpoint_spec_witness :
    restore_checkpoint exCtx [] exChkBadLabels = .error .labelsMismatch ∧
    restore_checkpoint exCtx [] exChkBadFov = .error .fovMismatch ∧
    restore_checkpoint exCtx [] exChkTooDeep =
      .error .depthExceedsCheckpoint ∧
    restore_checkpoint exCtx [] exChkComplete = .error .alreadyComplete := by
  refine ⟨?_, ?_, ?_, ?_⟩
  · exact (restore_checkpoint_spec exCtx [] exChkBadLabels).1 (by decide)
  · exact (restore_checkpoint_spec exCtx [] exChkBadFov).2.1 (by decide)
      (by norm_num [exChkBadFov, exCtx])
  · exact (restore_checkpoint_spec exCtx [] exChkTooDeep).2.2.1 (by decide)
      (by norm_num [exChkTooDeep, exCtx]) (by decide)
  · exact (restore_checkpoint_spec exCtx [] exChkComplete).2.2.2 (by decide)
      (by norm_num [exChkComplete, exCtx]) (by decide) (by decide)

end Glimpse
